import Mathlib

/-!
Verification of the graph-contraction engine of `grafo.py` / `grafo1.py`.

The two scripts implement an interactive tool that repeatedly merges pairs of
nodes of a weighted undirected `networkx` graph.  Everything relevant to the
claims lives in the class `DraggableGraph` and in `read_graph_from_file`.

Modelling choices (shallow embedding):
* `networkx.Graph` is a dict from node id to an adjacency dict from neighbor
  id to edge weight.  Python dicts are modelled by association lists with
  insertion-order semantics: assignment updates the first occurrence of a key
  in place, otherwise appends; lookup returns the first occurrence.
* Node identifiers are strings (in `grafo.py` the nodes are created with
  `str(i)`; in `grafo1.py` they are ints but are only ever formatted into the
  composite string `f"{node1},{node2}"`, so strings model both variants).
* Edge weights are Python floats; they are modelled by `Rat`.  Every weight
  manipulated by the engine is a sum of file literals, so the claims about
  exact sums and about the `1e-6` tie tolerance are faithfully represented.
* Python exceptions (`networkx` raising on `G.neighbors` of a missing node,
  `KeyError` on dict access, `IndexError` / `ValueError`) are modelled by
  `Except`, with the error value carrying the mutated state at raise time.
-/

/-! ### Python dict as an association list -/

/-- First-occurrence lookup, `d.get(k)` / `d[k]`. -/
def alist_get {β : Type} : List (String × β) → String → Option β
  | [], _ => none
  | (k1, v1) :: rest, k => if k1 = k then some v1 else alist_get rest k

/-- Python dict assignment `d[k] = v`: update the first occurrence of `k`
in place, otherwise append at the end. -/
def alist_set {β : Type} : List (String × β) → String → β → List (String × β)
  | [], k, v => [(k, v)]
  | (k1, v1) :: rest, k, v =>
      if k1 = k then (k, v) :: rest else (k1, v1) :: alist_set rest k v

/-- Python `del d[k]` (all occurrences; a real dict has at most one). -/
def alist_del {β : Type} (l : List (String × β)) (k : String) : List (String × β) :=
  l.filter (fun p => p.1 ≠ k)

/-- Keys of a dict, in insertion order. -/
def alist_keys {β : Type} (l : List (String × β)) : List String :=
  l.map Prod.fst

theorem alist_get_set_eq {β : Type} (l : List (String × β)) (k : String) (v : β) :
    alist_get (alist_set l k v) k = some v := by
  induction l with
  | nil => simp [alist_set, alist_get]
  | cons p rest ih =>
      obtain ⟨a, b⟩ := p
      by_cases h : a = k
      · simp [alist_set, h, alist_get]
      · simp [alist_set, h, alist_get, ih]

theorem alist_get_set_ne {β : Type} (l : List (String × β)) (k k1 : String) (v : β)
    (h : k1 ≠ k) : alist_get (alist_set l k v) k1 = alist_get l k1 := by
  have hk : k ≠ k1 := Ne.symm h
  induction l with
  | nil => simp [alist_set, alist_get, hk]
  | cons p rest ih =>
      obtain ⟨a, b⟩ := p
      by_cases h2 : a = k
      · subst h2
        simp [alist_set, alist_get, hk]
      · by_cases h3 : a = k1
        · subst h3
          simp [alist_set, alist_get, h, h2]
        · simp [alist_set, h2, alist_get, h3, ih]

theorem alist_get_eq_none {β : Type} (l : List (String × β)) (k : String)
    (h : k ∉ alist_keys l) : alist_get l k = none := by
  induction l with
  | nil => rfl
  | cons p rest ih =>
      obtain ⟨a, b⟩ := p
      simp [alist_keys] at h
      have ha : a ≠ k := fun h2 => h.1 h2.symm
      simp [alist_get, ha]
      exact ih (by simpa [alist_keys] using h.2)

theorem alist_get_append_left {β : Type} (l1 l2 : List (String × β)) (k : String)
    (h : k ∈ alist_keys l1) :
    alist_get (l1 ++ l2) k = alist_get l1 k := by
  induction l1 with
  | nil => simp [alist_keys] at h
  | cons p rest ih =>
      obtain ⟨a, b⟩ := p
      by_cases h2 : a = k
      · simp [alist_get, h2]
      · simp [alist_keys] at h
        rcases h with h | h
        · exact absurd h.symm h2
        · simp [alist_get, h2]
          exact ih (by simpa [alist_keys] using h)

theorem alist_get_append_right {β : Type} (l1 l2 : List (String × β)) (k : String)
    (h : k ∉ alist_keys l1) :
    alist_get (l1 ++ l2) k = alist_get l2 k := by
  induction l1 with
  | nil => rfl
  | cons p rest ih =>
      obtain ⟨a, b⟩ := p
      simp [alist_keys] at h
      have ha : a ≠ k := fun h2 => h.1 h2.symm
      simp [alist_get, ha]
      exact ih (by simpa [alist_keys] using h.2)

theorem alist_keys_set_mem {β : Type} (l : List (String × β)) (k : String) (v : β)
    (h : k ∈ alist_keys l) : alist_keys (alist_set l k v) = alist_keys l := by
  induction l with
  | nil => simp [alist_keys] at h
  | cons p rest ih =>
      obtain ⟨a, b⟩ := p
      by_cases h2 : a = k
      · simp [alist_set, h2, alist_keys]
      · simp only [alist_keys, List.map_cons, List.mem_cons] at h
        rcases h with h | h
        · exact absurd h.symm h2
        · simp only [alist_set, h2, if_false, alist_keys, List.map_cons] at ih ⊢
          rw [ih h]

/-! ### networkx graph model

A `networkx.Graph` is a dict from node to its adjacency dict
(neighbor ↦ edge attributes; the only attribute used is `weight`).
`add_edge` writes both directions; `remove_nodes_from` deletes the nodes
and every incident edge. -/

structure Graph where
  adj : List (String × List (String × Rat))
deriving DecidableEq, Repr

/-- `list(G.nodes)`: nodes in insertion order. -/
def Graph.nodesL (g : Graph) : List String :=
  alist_keys g.adj

/-- Adjacency dict of a node (`G.adj[v]`); `[]` when the node is absent
(call sites that would make Python raise guard membership explicitly). -/
def Graph.adjOf (g : Graph) (v : String) : List (String × Rat) :=
  (alist_get g.adj v).getD []

/-- `list(G.neighbors(v))` for an existing node `v`. -/
def Graph.neighbors (g : Graph) (v : String) : List String :=
  alist_keys (g.adjOf v)

/-- `G.get_edge_data(u, v, {"weight": 0})["weight"]`: edge weight with a
missing edge counting as `0`. -/
def Graph.edgeWeightD (g : Graph) (u v : String) : Rat :=
  (alist_get (g.adjOf u) v).getD 0

/-- `G.add_node(v)` (no attributes): no-op when the node exists. -/
def Graph.add_node (g : Graph) (v : String) : Graph :=
  if v ∈ g.nodesL then g else ⟨g.adj ++ [(v, [])]⟩

/-- `G.add_edge(u, v, weight=w)`: ensure both endpoints exist, then write
the weight in both adjacency dicts. -/
def Graph.add_edge (g : Graph) (u v : String) (w : Rat) : Graph :=
  let g1 := (g.add_node u).add_node v
  let g2 : Graph := ⟨alist_set g1.adj u (alist_set (g1.adjOf u) v w)⟩
  ⟨alist_set g2.adj v (alist_set (g2.adjOf v) u w)⟩

/-- `G.remove_nodes_from(l)`: drop the nodes and every incident edge. -/
def Graph.remove_nodes_from (g : Graph) (l : List String) : Graph :=
  ⟨(g.adj.filter (fun p => p.1 ∉ l)).map (fun p => (p.1, p.2.filter (fun q => q.1 ∉ l)))⟩

/-- `G.edges(data=True)`: every edge reported once, in adjacency order
(a node's edges to already-reported nodes are skipped). -/
def edge_list_aux : List (String × List (String × Rat)) → List String →
    List (String × String × Rat)
  | [], _ => []
  | (u, l) :: rest, seen =>
      (l.filterMap (fun p => if p.1 ∈ seen then none else some (u, p.1, p.2)))
        ++ edge_list_aux rest (u :: seen)

def Graph.edge_list (g : Graph) : List (String × String × Rat) :=
  edge_list_aux g.adj []

/-- Python `set(xs)` keeps one copy of every element; iteration order is
hash-dependent in Python, modelled here as first-occurrence order. -/
def dedup_aux : List String → List String → List String
  | [], _ => []
  | x :: xs, seen => if x ∈ seen then dedup_aux xs seen else x :: dedup_aux xs (x :: seen)

def dedup_str (l : List String) : List String :=
  dedup_aux l []

/-- `set(G.neighbors(n1)).union(set(G.neighbors(n2)))`. -/
def Graph.nbr_union (g : Graph) (n1 n2 : String) : List String :=
  dedup_str (g.neighbors n1 ++ g.neighbors n2)

/-! ### Engine state (`DraggableGraph` of `grafo.py`)

Only the fields touched by the contraction engine are modelled; the
matplotlib figure, axes and event wiring are presentation shell. -/

structure GState where
  G : Graph
  pos : List (String × (Rat × Rat))
  merged_node : String
  last_merged_nodes : List String
  merged_nodes : List String
  shrinked_nodes : List (String × String)
  initial_nodes : List String
  original_G : Graph
  original_pos : List (String × (Rat × Rat))
deriving DecidableEq, Repr

/-- Reduced state of the `grafo1.py` variant of `DraggableGraph`
(no history lists, no checkpoints). -/
structure GState1 where
  G : Graph
  pos : List (String × (Rat × Rat))
  merged_node : String
deriving DecidableEq, Repr

/-- The edge dict computed inside `merge_nodes`: for every `neighbor` of
`node1` or `node2` other than the two merged nodes,
`weight = get_edge_data(node1, neighbor, 0) + get_edge_data(node2, neighbor, 0)`. -/
def merge_edges (g : Graph) (node1 node2 : String) : List (String × Rat) :=
  (g.nbr_union node1 node2).filterMap (fun k =>
    if k = node1 ∨ k = node2 then none
    else some (k, g.edgeWeightD node1 k + g.edgeWeightD node2 k))

/-- Graph part of `merge_nodes`, shared by both scripts: remove the merged
nodes, insert the composite node and write the summed edges. -/
def merge_graph (g : Graph) (node1 node2 : String) : Graph :=
  let new_node := node1 ++ "," ++ node2
  let edges := merge_edges g node1 node2
  let g1 := (g.remove_nodes_from [node1, node2]).add_node new_node
  edges.foldl (fun g2 p => g2.add_edge new_node p.1 p.2) g1

/-- Midpoint of the two removed positions. -/
def mid_pos (p1 p2 : Rat × Rat) : Rat × Rat :=
  ((p1.1 + p2.1) / 2, (p1.2 + p2.2) / 2)

/-- `DraggableGraph.merge_nodes` of `grafo.py`.

The Python method first appends `node1`, `node2` to `self.merged_nodes`,
then iterates `G.neighbors` of both nodes (networkx raises there when a
node is missing — nothing has been removed yet), mutates the graph, and
finally reads and deletes the two position entries (a `KeyError` there
happens after the graph mutation).  `Except.error` carries the state at
the moment the exception escapes. -/
def merge_nodes (node1 node2 : String) (s : GState) : Except GState GState :=
  let s0 := { s with merged_nodes := s.merged_nodes ++ [node1, node2] }
  if node1 ∈ s0.G.nodesL ∧ node2 ∈ s0.G.nodesL then
    let new_node := node1 ++ "," ++ node2
    let g2 := merge_graph s0.G node1 node2
    match alist_get s0.pos node1, alist_get s0.pos node2 with
    | some p1, some p2 =>
        let pos1 := alist_set s0.pos new_node (mid_pos p1 p2)
        .ok { s0 with G := g2, pos := alist_del (alist_del pos1 node1) node2 }
    | _, _ => .error { s0 with G := g2 }
  else .error s0

/-- `DraggableGraph.merge_nodes` of `grafo1.py` (identical except that no
merge history is kept). -/
def merge_nodes1 (node1 node2 : String) (s : GState1) : Except GState1 GState1 :=
  if node1 ∈ s.G.nodesL ∧ node2 ∈ s.G.nodesL then
    let new_node := node1 ++ "," ++ node2
    let g2 := merge_graph s.G node1 node2
    match alist_get s.pos node1, alist_get s.pos node2 with
    | some p1, some p2 =>
        let pos1 := alist_set s.pos new_node (mid_pos p1 p2)
        .ok { s with G := g2, pos := alist_del (alist_del pos1 node1) node2 }
    | _, _ => .error { s with G := g2 }
  else .error s

/-! ### Python string primitives

`str.split`, `str.strip` and the numeric constructors are implemented
over the character list of the string (structural recursion, so that every
proof obligation below can be settled by evaluation).  They model the
Python semantics used by the scripts. -/

/-- `s.split(sep)` for a one-character separator: cut at every occurrence,
keeping empty pieces (`"".split(",") == [""]`). -/
def split_char_aux (c : Char) : List Char → List Char → List (List Char)
  | [], acc => [acc.reverse]
  | x :: xs, acc =>
      if x = c then acc.reverse :: split_char_aux c xs []
      else split_char_aux c xs (x :: acc)

def py_split_on (c : Char) (s : String) : List String :=
  (split_char_aux c s.data []).map (fun l => ⟨l⟩)

/-- Python whitespace for `str.strip()` / `str.split()`. -/
def is_blank (c : Char) : Bool :=
  c = ' ' ∨ c = '\t' ∨ c = '\n' ∨ c = '\r'

/-- `s.strip()`. -/
def py_strip (s : String) : String :=
  ⟨((s.data.dropWhile is_blank).reverse.dropWhile is_blank).reverse⟩

/-- `s.split()` with no argument: whitespace runs, no empty tokens. -/
def py_split (s : String) : List String :=
  ((split_char_aux ' ' (s.data.map (fun c => if is_blank c then ' ' else c)) []).map
    (fun l => (⟨l⟩ : String))).filter (fun t => t ≠ "")

def digit_val (c : Char) : Nat := c.toNat - 48

/-- Value of a digit run; `none` on a non-digit. -/
def digits_val : List Char → Option Nat
  | [] => some 0
  | c :: cs =>
      if c.isDigit then
        (digits_val cs).map (fun n => digit_val c * 10 ^ cs.length + n)
      else none

/-- `int(s)` on a stripped string: optional sign, nonempty digit run;
`none` models the `ValueError`. -/
def py_int (s : String) : Option Int :=
  let core : List Char → Option Int := fun l =>
    if l = [] then none else (digits_val l).map Int.ofNat
  match s.data with
  | '-' :: rest => (core rest).map Neg.neg
  | '+' :: rest => core rest
  | l => core l

/-- `int(i)` on an identifier token.  Python `int` raises on a malformed
token; every identifier in this program is a comma-join of decimal leaf
indices, so the default is never exercised by the claims below. -/
def parse_leaf (t : String) : Int :=
  (py_int t).getD 0

/-- `DraggableGraph.find_smallest_number` (grafo.py): minimum parsed token
of each identifier, starting from the sentinel `9999999999999`. -/
def find_smallest_number (node1 node2 : String) : Int × Int :=
  let l1 := py_split_on ',' node1
  let l2 := py_split_on ',' node2
  let small_1 := l1.foldl (fun a i => if parse_leaf i < a then parse_leaf i else a) 9999999999999
  let small_2 := l2.foldl (fun a i => if parse_leaf i < a then parse_leaf i else a) 9999999999999
  (small_1, small_2)

/-- Minimum contained leaf index of one identifier (the quantity
`find_smallest_number` computes for each argument). -/
def small_of (node : String) : Int :=
  (py_split_on ',' node).foldl (fun a i => if parse_leaf i < a then parse_leaf i else a) 9999999999999

/-- The float tolerance `0.000001` used by `find_max_edge_node` in grafo.py. -/
def tol : Rat := 1 / 1000000

/-- One iteration of the `for neighbor in self.G.neighbors(target)` loop of
`find_max_edge_node` (grafo.py).  `none` is the initial
`max_weight = float(-inf), max_edge_node = None` pair: any finite weight
satisfies `weight > -inf + 0.000001`, so the first neighbor always takes
the first branch (and `find_smallest_number` is never called on `None`). -/
def fmen_step (acc : Option (Rat × String)) (p : String × Rat) : Option (Rat × String) :=
  match acc with
  | none => some (p.2, p.1)
  | some (mw, men) =>
      if p.2 > mw + tol then some (p.2, p.1)
      else if |p.2 - mw| < tol then
        let s12 := find_smallest_number p.1 men
        if s12.1 < s12.2 then some (p.2, p.1) else some (p.2, men)
      else some (mw, men)

/-- `DraggableGraph.find_max_edge_node` of `grafo.py`.  networkx raises when
`target` is not in the graph. -/
def find_max_edge_node (g : Graph) (target : String) : Except Unit (Option String) :=
  if target ∈ g.nodesL then
    .ok (((g.adjOf target).foldl fmen_step none).map (fun q => q.2))
  else .error ()

/-- Loop body of `find_max_edge_node` in `grafo1.py`: plain strict
maximum, first occurrence wins, no tie-break. -/
def fmen1_step (acc : Option (Rat × String)) (p : String × Rat) : Option (Rat × String) :=
  match acc with
  | none => some (p.2, p.1)
  | some (mw, men) => if p.2 > mw then some (p.2, p.1) else some (mw, men)

/-- `DraggableGraph.find_max_edge_node` of `grafo1.py`. -/
def find_max_edge_node1 (g : Graph) (target : String) : Except Unit (Option String) :=
  if target ∈ g.nodesL then
    .ok (((g.adjOf target).foldl fmen1_step none).map (fun q => q.2))
  else .error ()

/-- `DraggableGraph.fuse_max_edge_to_merged` of `grafo.py`: a no-op when the
anchor is not in `self.pos` or has no max-edge neighbor; otherwise merge
and extend the anchor identifier. -/
def fuse_max_edge_to_merged (s : GState) : Except GState GState :=
  if s.merged_node ∈ alist_keys s.pos then
    match find_max_edge_node s.G s.merged_node with
    | .error _ => .error s
    | .ok none => .ok s
    | .ok (some m) =>
        match merge_nodes s.merged_node m s with
        | .error t => .error t
        | .ok t => .ok { t with merged_node := s.merged_node ++ "," ++ m }
  else .ok s

/-- `DraggableGraph.find_subset` (grafo.py): counts the elements of `list1`
found in `list2` and compares the count with `len(list1)`, i.e. tests
"every element of `list1` appears in `list2`". -/
def find_subset (list1 list2 : List String) : Bool :=
  (list1.foldl (fun c i => if i ∈ list2 then c + 1 else c) (0 : Nat)) = list1.length

/-- `DraggableGraph.find_nodes` (grafo.py): keep every entry `n` of
`self.initial_nodes` with `find_subset(node1.split(","), n.split(","))`
or `find_subset(node2.split(","), n.split(","))`. -/
def find_nodes (initial_nodes : List String) (node1 node2 : String) : List String :=
  initial_nodes.filter (fun n =>
    find_subset (py_split_on ',' node1) (py_split_on ',' n) ||
    find_subset (py_split_on ',' node2) (py_split_on ',' n))

/-- Python negative indexing `l[-k]` (raises `IndexError` out of range). -/
def neg_index {α : Type} (l : List α) (k : Nat) : Option α :=
  if 0 < k ∧ k ≤ l.length then l[l.length - k]? else none

/-- `self.merged_nodes` flattened view of a pair list: each replayed merge
appends its two arguments. -/
def flat_pairs : List (String × String) → List String
  | [] => []
  | p :: ps => p.1 :: p.2 :: flat_pairs ps

/-- Sequential merges: the `for` loop of `reset_graph` and any chain of
user-driven merges.  An exception aborts the remaining iterations. -/
def apply_merges : List (String × String) → GState → Except GState GState
  | [], s => .ok s
  | p :: ps, s =>
      match merge_nodes p.1 p.2 s with
      | .ok s1 => apply_merges ps s1
      | .error t => .error t

/-- `G.clear(); G.add_nodes_from(original.nodes()); G.add_edges_from(original
edges with data)`: rebuild a graph from the snapshot. -/
def rebuild (orig : Graph) : Graph :=
  let g1 := orig.nodesL.foldl (fun g n => g.add_node n) ⟨[]⟩
  orig.edge_list.foldl (fun g e => g.add_edge e.1 e.2.1 e.2.2) g1

/-- The state right after the restore part of `reset_graph` (grafo.py),
before the shrink checkpoints are replayed. -/
def restore_state (s : GState) : GState :=
  { s with
    G := rebuild s.original_G
    pos := s.original_pos
    merged_node := "0"
    merged_nodes := [] }

/-- `DraggableGraph.reset_graph` of `grafo.py`: restore the snapshot, reset
the anchor to `"0"`, clear the merge history, replay every shrink
checkpoint through `merge_nodes`, then rebuild `initial_nodes` from the
resulting graph (every node id is already a string here, so the
`type(n) == int` branch of the Python loop is the identity). -/
def reset_graph (s : GState) : Except GState GState :=
  match apply_merges s.shrinked_nodes (restore_state s) with
  | .ok t => .ok { t with initial_nodes := t.G.nodesL }
  | .error t => .error t

/-- The `'enter'` branch of `DraggableGraph.on_key_press` (grafo.py): one
greedy fuse; if the graph collapsed to a single node, look up
`merged_nodes[-3]` and `merged_nodes[-1]`, recover the leaf sets with
`find_nodes`, store them in `last_merged_nodes`, record one shrink
checkpoint (`shrink_last_merged`: unpack the two labels, clear
`last_merged_nodes`, append the pair to `shrinked_nodes`) and reset. -/
def on_key_press_enter (s : GState) : Except GState GState := do
  let s1 ← fuse_max_edge_to_merged s
  if s1.G.nodesL.length = 1 then
    match neg_index s1.merged_nodes 3, neg_index s1.merged_nodes 1 with
    | some m3, some m1 =>
        let s2 := { s1 with last_merged_nodes := find_nodes s1.initial_nodes m3 m1 }
        match s2.last_merged_nodes with
        | [n1, n2] =>
            reset_graph { s2 with
              last_merged_nodes := []
              shrinked_nodes := s2.shrinked_nodes ++ [(n1, n2)] }
        | _ => .error s2
    | _, _ => .error s1
  else pure s1

/-! ### `read_graph_from_file`

The file is modelled as its list of lines.  `int(file.readline().strip())`
raises `ValueError` when the file is empty (`int("")`) or the first line is
not an integer literal; each remaining line is `line.strip().split()` and
every token goes through `float(...)`, which raises on a non-numeric token.
No shape validation of any kind is performed. -/

/-- Python `float(token)` restricted to plain decimal literals
(optional sign, digits, optional single point; `"1."` and `".5"` accepted,
`"."` and `""` rejected).  Exponent, `inf` and `nan` forms, which the
program's numeric matrix files do not use, are not modelled. -/
def parse_float (t : String) : Option Rat :=
  let core : String → Option Rat := fun u =>
    match py_split_on '.' u with
    | [a] =>
        if a.data ≠ [] then (digits_val a.data).map (fun n => (n : Rat)) else none
    | [a, b] =>
        if a.data ≠ [] ∨ b.data ≠ [] then
          match digits_val a.data, digits_val b.data with
          | some na, some nb => some ((na : Rat) + (nb : Rat) / (10 : Rat) ^ b.data.length)
          | _, _ => none
        else none
    | _ => none
  match t.data with
  | '-' :: rest => (core ⟨rest⟩).map Neg.neg
  | '+' :: rest => core ⟨rest⟩
  | _ => core t

/-- `map` that aborts on the first failure (the behavior of
`list(map(float, ...))` and of the comprehension over the file's lines). -/
def opt_mapM {α β : Type} (f : α → Option β) : List α → Option (List β)
  | [] => some []
  | x :: xs =>
      match f x, opt_mapM f xs with
      | some v, some r => some (v :: r)
      | _, _ => none

/-- `read_graph_from_file` (identical in both scripts): parse the count
line, then parse every remaining line as a row of floats. -/
def read_graph_from_file (lines : List String) : Except Unit (Int × List (List Rat)) :=
  match lines with
  | [] => .error ()
  | first :: rest =>
      match py_int (py_strip first) with
      | none => .error ()
      | some n =>
          match opt_mapM (fun line => opt_mapM parse_float (py_split (py_strip line))) rest with
          | none => .error ()
          | some matrix => .ok (n, matrix)

/- Batteries marks the rational operations `@[irreducible]`; re-allow
unfolding so that concrete runs of the engine can be settled by `decide`. -/
attribute [local semireducible] Rat.add Rat.sub Rat.mul Rat.inv

/-! ### Claims about failing merges (C6, C10) -/

/-- State observed after a call, whether it returned or raised. -/
def except_state : Except GState GState → GState
  | .ok t => t
  | .error t => t

instance {α β : Type} [DecidableEq α] [DecidableEq β] : DecidableEq (Except α β) := fun a b =>
  match a, b with
  | .ok x, .ok y =>
      if h : x = y then isTrue (by rw [h]) else isFalse (by simp [h])
  | .error x, .error y =>
      if h : x = y then isTrue (by rw [h]) else isFalse (by simp [h])
  | .ok _, .error _ => isFalse (by simp)
  | .error _, .ok _ => isFalse (by simp)

/-- C10: in grafo.py, `merge_nodes` appends `node1` and `node2` to the
`merged_nodes` history before any existence check or mutation, so every
call — returning or raising — grows the history by exactly those two
entries. -/
theorem merge_history_always_grows (s : GState) (a b : String) :
    (except_state (merge_nodes a b s)).merged_nodes = s.merged_nodes ++ [a, b] := by
  unfold merge_nodes
  by_cases h : a ∈ s.G.nodesL ∧ b ∈ s.G.nodesL
  · simp only [h, and_self, if_true]
    rcases h1 : alist_get s.pos a with _ | p1 <;>
      rcases h2 : alist_get s.pos b with _ | p2 <;>
      simp [except_state, h1, h2]
  · simp [h, except_state]

/-- C6: calling merge with a node identifier that is not in the graph
raises (networkx `NetworkXError`, the spec's `InvalidNodeError`) before
anything is removed: the graph and the positions are exactly the pre-call
ones, in both scripts. -/
theorem merge_invalid_node (s : GState) (a b : String)
    (h : a ∉ s.G.nodesL ∨ b ∉ s.G.nodesL) :
    (∃ t, merge_nodes a b s = .error t ∧ t.G = s.G ∧ t.pos = s.pos) ∧
    ∀ s1 : GState1, a ∉ s1.G.nodesL ∨ b ∉ s1.G.nodesL →
      merge_nodes1 a b s1 = .error s1 := by
  constructor
  · have h2 : ¬(a ∈ s.G.nodesL ∧ b ∈ s.G.nodesL) := by tauto
    refine ⟨{ s with merged_nodes := s.merged_nodes ++ [a, b] }, ?_, rfl, rfl⟩
    simp [merge_nodes, h2]
  · intro s1 h1
    have h2 : ¬(a ∈ s1.G.nodesL ∧ b ∈ s1.G.nodesL) := by tauto
    simp [merge_nodes1, h2]

/-- A one-node state used to exercise `merge_nodes` on a missing node. -/
def inv_state : GState :=
  { G := ⟨[("0", [])]⟩, pos := [("0", (0, 0))], merged_node := "0",
    last_merged_nodes := [], merged_nodes := [], shrinked_nodes := [],
    initial_nodes := ["0"], original_G := ⟨[("0", [])]⟩,
    original_pos := [("0", (0, 0))] }

theorem merge_invalid_node_witness :
    (("9" : String) ∉ inv_state.G.nodesL ∨ ("0" : String) ∉ inv_state.G.nodesL) ∧
    (∃ t, merge_nodes "9" "0" inv_state = .error t ∧
      t.G = inv_state.G ∧ t.pos = inv_state.pos) :=
  ⟨Or.inl (by decide),
   (merge_invalid_node inv_state "9" "0" (Or.inl (by decide))).1⟩

/-! ### Claim C9: isolated anchor is a no-op -/

/-- C9: `find_max_edge_node` on an existing node without neighbors returns
`None` rather than raising, and the greedy step `fuse_max_edge_to_merged`
is then a complete no-op (graph, positions and histories unchanged). -/
theorem isolated_node_noop :
    (∀ (g : Graph) (t : String), t ∈ g.nodesL → g.adjOf t = [] →
      find_max_edge_node g t = .ok none) ∧
    (∀ s : GState, s.merged_node ∈ s.G.nodesL → s.G.adjOf s.merged_node = [] →
      fuse_max_edge_to_merged s = .ok s) := by
  constructor
  · intro g t ht hn
    simp [find_max_edge_node, ht, hn]
  · intro s hm hn
    unfold fuse_max_edge_to_merged
    by_cases hp : s.merged_node ∈ alist_keys s.pos
    · simp [hp, find_max_edge_node, hm, hn]
    · simp [hp]

/-- A one-node state: node `"0"` is the anchor and has no neighbors. -/
def iso_state : GState :=
  { G := ⟨[("0", [])]⟩, pos := [("0", (0, 0))], merged_node := "0",
    last_merged_nodes := [], merged_nodes := [], shrinked_nodes := [],
    initial_nodes := ["0"], original_G := ⟨[("0", [])]⟩,
    original_pos := [("0", (0, 0))] }

theorem isolated_node_noop_witness :
    (("0" : String) ∈ iso_state.G.nodesL ∧
      iso_state.G.adjOf "0" = [] ∧
      find_max_edge_node iso_state.G "0" = .ok none) ∧
    fuse_max_edge_to_merged iso_state = .ok iso_state :=
  ⟨⟨by decide, rfl, isolated_node_noop.1 iso_state.G "0" (by decide) rfl⟩,
   isolated_node_noop.2 iso_state (by decide) rfl⟩

/-! ### Claim C4: collapse and checkpoint on a concrete 4-node run

A complete graph on nodes `"0" … "3"` with the distinct weights
`w(0,1)=1, w(0,2)=5, w(0,3)=2, w(1,2)=3, w(1,3)=4, w(2,3)=6`, built in the
insertion order of `plot_graph` (edges `(i,j)` for `i < j`). -/

def c4G : Graph := ⟨[
  ("0", [("1", 1), ("2", 5), ("3", 2)]),
  ("1", [("0", 1), ("2", 3), ("3", 4)]),
  ("2", [("0", 5), ("1", 3), ("3", 6)]),
  ("3", [("0", 2), ("1", 4), ("2", 6)])]⟩

def c4pos : List (String × (Rat × Rat)) :=
  [("0", (0, 0)), ("1", (1, 0)), ("2", (0, 1)), ("3", (1, 1))]

def c4s0 : GState :=
  { G := c4G, pos := c4pos, merged_node := "0", last_merged_nodes := [],
    merged_nodes := [], shrinked_nodes := [], initial_nodes := ["0", "1", "2", "3"],
    original_G := c4G, original_pos := c4pos }

def c4s1 : GState := except_state (on_key_press_enter c4s0)

def c4s2 : GState := except_state (on_key_press_enter c4s1)

def c4s3 : GState := except_state (on_key_press_enter c4s2)

/-- The state at the moment the graph has collapsed to one node: after the
third greedy fuse, before the checkpoint-and-reset part of the handler. -/
def c4collapse : GState := except_state (fuse_max_edge_to_merged c4s2)

/-- C4: driving greedy contraction of the 4-node complete graph to full
collapse: the third `'enter'` press reduces the graph to the single node
`"0,2,3,1"`, the handler reads `merged_nodes[-3] = "3"` and
`merged_nodes[-1] = "1"`, `find_nodes` recovers the leaf pair
`["1", "3"]`, exactly one shrink checkpoint `("1", "3")` is recorded, and
after the automatic reset the graph is the snapshot with that merge
already applied (node `"1,3"`, weights `3` to `"0"` and `9` to `"2"`). -/
theorem collapse_and_checkpoint :
    on_key_press_enter c4s0 = .ok c4s1 ∧
    on_key_press_enter c4s1 = .ok c4s2 ∧
    on_key_press_enter c4s2 = .ok c4s3 ∧
    c4s2.G.nodesL.length = 2 ∧
    c4collapse.G.nodesL = ["0,2,3,1"] ∧
    c4collapse.merged_nodes = ["0", "2", "0,2", "3", "0,2,3", "1"] ∧
    neg_index c4collapse.merged_nodes 3 = some "3" ∧
    neg_index c4collapse.merged_nodes 1 = some "1" ∧
    find_nodes c4collapse.initial_nodes "3" "1" = ["1", "3"] ∧
    c4s2.shrinked_nodes = [] ∧
    c4s3.shrinked_nodes = [("1", "3")] ∧
    c4s3.G.nodesL = ["0", "2", "1,3"] ∧
    c4s3.G.edgeWeightD "1,3" "0" = 3 ∧
    c4s3.G.edgeWeightD "1,3" "2" = 9 ∧
    c4s3.G.edgeWeightD "0" "2" = 5 ∧
    c4s3.merged_node = "0" ∧
    c4s3.merged_nodes = ["1", "3"] := by
  refine ⟨?_, ?_, ?_, ?_, ?_, ?_, ?_, ?_, ?_, ?_, ?_, ?_, ?_, ?_, ?_, ?_, ?_⟩ <;> decide

/-! ### Claim C5: `find_nodes` subset direction -/

theorem find_subset_count (l1 l2 : List String) (c : Nat) :
    l1.foldl (fun c i => if i ∈ l2 then c + 1 else c) c
      = c + l1.countP (fun i => decide (i ∈ l2)) := by
  induction l1 generalizing c with
  | nil => simp
  | cons x xs ih =>
      by_cases h : x ∈ l2
      · simp [h, ih, List.countP_cons]
        omega
      · simp [h, ih, List.countP_cons]

/-- `find_subset list1 list2` holds exactly when every element of `list1`
appears in `list2`. -/
theorem find_subset_iff (l1 l2 : List String) :
    find_subset l1 l2 = true ↔ ∀ x ∈ l1, x ∈ l2 := by
  simp [find_subset, find_subset_count, List.countP_eq_length]

/-- The selection the spec describes for `find_nodes`: keep the initial
identifiers whose own token set is a subset of a target label's token
set (the converse direction of what the code computes). -/
def find_nodes_claim (initial_nodes : List String) (node1 node2 : String) : List String :=
  initial_nodes.filter (fun n =>
    (py_split_on ',' n).all (fun tk => tk ∈ py_split_on ',' node1) ||
    (py_split_on ',' n).all (fun tk => tk ∈ py_split_on ',' node2))

/-- C5 counterexample: with initial identifiers `["0","1","2"]` and labels
`"0,1"` and `"2"`, the code returns only `["2"]` — the leaf `"0"`, whose
token set is a subset of `"0,1"`, is not returned, while the spec's
reading would return all three leaves.  The code tests `label ⊆ n`,
not `n ⊆ label`. -/
theorem find_nodes_direction_cex :
    find_nodes ["0", "1", "2"] "0,1" "2" = ["2"] ∧
    find_nodes_claim ["0", "1", "2"] "0,1" "2" = ["0", "1", "2"] ∧
    ("0" : String) ∉ find_nodes ["0", "1", "2"] "0,1" "2" := by
  refine ⟨?_, ?_, ?_⟩ <;> decide

/-- C5 amended: `find_nodes(labelA, labelB)` returns exactly those entries
`n` of the initial-identifier list such that every token of `labelA`
appears among `n`'s tokens or every token of `labelB` appears among `n`'s
tokens. -/
theorem find_nodes_membership (initial_nodes : List String) (node1 node2 n : String) :
    n ∈ find_nodes initial_nodes node1 node2 ↔
      n ∈ initial_nodes ∧
        ((∀ tk ∈ py_split_on ',' node1, tk ∈ py_split_on ',' n) ∨
         (∀ tk ∈ py_split_on ',' node2, tk ∈ py_split_on ',' n)) := by
  simp [find_nodes, List.mem_filter, find_subset_iff]

/-! ### Claim C7: `read_graph_from_file` validation -/

theorem mapM_option_some {α β : Type} (f : α → Option β) (l : List α)
    (h : ∀ x ∈ l, (f x).isSome = true) :
    ∃ r, opt_mapM f l = some r ∧ r.length = l.length ∧
      ∀ i : Nat, r[i]? = (l[i]?).bind f := by
  induction l with
  | nil =>
      refine ⟨[], rfl, rfl, ?_⟩
      intro i
      simp
  | cons x xs ih =>
      obtain ⟨v, hv⟩ := Option.isSome_iff_exists.1 (h x (List.mem_cons_self x xs))
      obtain ⟨r, hr, hlen, hidx⟩ := ih (fun y hy => h y (List.mem_cons_of_mem x hy))
      refine ⟨v :: r, ?_, by simp [hlen], ?_⟩
      · simp [opt_mapM, hv, hr]
      · intro i
        cases i with
        | zero => simp [hv]
        | succ j => simpa using hidx j

theorem mapM_option_none {α β : Type} (f : α → Option β) (l : List α) (x : α)
    (hx : x ∈ l) (h : f x = none) : opt_mapM f l = none := by
  induction l with
  | nil => cases hx
  | cons y ys ih =>
      rcases List.mem_cons.1 hx with h1 | h1
      · subst h1
        simp only [opt_mapM, h]
      · cases hy : f y with
        | none => simp only [opt_mapM, hy]
        | some v => simp [opt_mapM, hy, ih h1]

/-- C7 counterexample: the file declares `2` nodes but its first matrix row
has `3` entries; `read_graph_from_file` loads it without any error. -/
theorem read_graph_row_mismatch_cex :
    read_graph_from_file ["2", "0 1 5", "1 0"] = .ok (2, [[0, 1, 5], [1, 0]]) ∧
    ([[(0 : Rat), 1, 5], [1, 0]].map List.length) = [3, 2] := by
  refine ⟨?_, ?_⟩ <;> decide

/-- C7 amended: loading fails (with `ValueError`, not a dedicated
`InvalidGraphFileError`, which does not exist in the code) only for a
missing or non-integer count line or a non-numeric token; a row-length
mismatch is never detected — every file whose tokens are all numeric is
loaded, one matrix row per remaining line, each row exactly as long as
the line's token list, with no comparison against the declared count. -/
theorem read_graph_behavior :
    (read_graph_from_file [] = .error ()) ∧
    (∀ first rest, py_int (py_strip first) = none →
      read_graph_from_file (first :: rest) = .error ()) ∧
    (∀ first rest line tk, line ∈ rest → tk ∈ py_split (py_strip line) →
      parse_float tk = none → py_int (py_strip first) ≠ none →
      read_graph_from_file (first :: rest) = .error ()) ∧
    (∀ first rest n, py_int (py_strip first) = some n →
      (∀ line ∈ rest, ∀ tk ∈ py_split (py_strip line), (parse_float tk).isSome = true) →
      ∃ M, read_graph_from_file (first :: rest) = .ok (n, M) ∧
        M.length = rest.length ∧
        ∀ i : Nat, (M[i]?).map List.length
          = (rest[i]?).map (fun l => (py_split (py_strip l)).length)) := by
  refine ⟨rfl, ?_, ?_, ?_⟩
  · intro first rest h
    simp [read_graph_from_file, h]
  · intro first rest line tk hline htk hnone hint
    cases hfirst : py_int (py_strip first) with
    | none => simp [read_graph_from_file, hfirst]
    | some n =>
        have hrow : opt_mapM parse_float (py_split (py_strip line)) = none :=
          mapM_option_none _ _ tk htk hnone
        have : opt_mapM (fun line => opt_mapM parse_float (py_split (py_strip line))) rest = none :=
          mapM_option_none _ _ line hline hrow
        simp [read_graph_from_file, hfirst, this]
  · intro first rest n hn hall
    have hrows : ∀ line ∈ rest,
        (opt_mapM parse_float (py_split (py_strip line))).isSome = true := by
      intro line hline
      obtain ⟨r, hr, _, _⟩ := mapM_option_some parse_float _ (hall line hline)
      simp [hr]
    obtain ⟨M, hM, hMlen, hMidx⟩ :=
      mapM_option_some (fun line => opt_mapM parse_float (py_split (py_strip line))) rest hrows
    refine ⟨M, by simp [read_graph_from_file, hn, hM], hMlen, ?_⟩
    intro i
    rw [hMidx i]
    cases hi : rest[i]? with
    | none => simp
    | some line =>
        have hline : line ∈ rest := by
          have := List.getElem?_eq_some_iff.1 hi
          obtain ⟨hlt, hget⟩ := this
          exact hget ▸ List.getElem_mem hlt
        obtain ⟨r, hr, hrlen, _⟩ := mapM_option_some parse_float _ (hall line hline)
        simp [hr, hrlen]

theorem read_graph_behavior_witness :
    py_int (py_strip "2") = some 2 ∧
    (∃ M, read_graph_from_file ["2", "0 1 5", "1 0"] = .ok (2, M) ∧
      M.length = 2 ∧
      ∀ i : Nat, (M[i]?).map List.length
        = ((["0 1 5", "1 0"] : List String)[i]?).map
            (fun l => (py_split (py_strip l)).length)) :=
  ⟨by decide,
   read_graph_behavior.2.2.2 "2" ["0 1 5", "1 0"] 2 (by decide) (by decide)⟩

/-! ### Claim C2: `find_max_edge_node` selection rule -/

/-- Tie graph for the grafo1 variant: target `"0"` has neighbors `"2"` and
`"1"` (in that adjacency order) with equal weight `5`. -/
def c2t1G : Graph :=
  ⟨[("0", [("2", 5), ("1", 5)]), ("1", [("0", 5)]), ("2", [("0", 5)])]⟩

/-- Tolerance-chain graph for grafo.py: neighbors of `"t"` in adjacency
order `"0"` (weight 1), `"2"` (weight 1 + 9e-7), `"1"` (weight 1 + 18e-7):
each consecutive pair is within the 1e-6 window although `"1"` exceeds
`"0"` by more than the window. -/
def c2t2G : Graph :=
  ⟨[("t", [("0", 1), ("2", 1 + 9/10000000), ("1", 1 + 18/10000000)]),
    ("0", [("t", 1)]), ("2", [("t", 1 + 9/10000000)]), ("1", [("t", 1 + 18/10000000)])]⟩

/-- C2 counterexample.  In grafo1.py there is no tie-break at all: with two
equal-weight neighbors it returns the first one in adjacency order
(`"2"`), not the one with the smaller minimum leaf index (`"1"`).  In
grafo.py, chained tolerance windows drag `max_weight` upward without
changing the kept node, so the returned neighbor `"0"` is not the
maximum-weight neighbor (`"1"` exceeds it by more than 1e-6), and the
result is not independent of adjacency order. -/
theorem find_max_tiebreak_cex :
    (c2t1G.edgeWeightD "0" "1" = c2t1G.edgeWeightD "0" "2" ∧
     small_of "1" < small_of "2" ∧
     find_max_edge_node1 c2t1G "0" = .ok (some "2")) ∧
    (c2t2G.edgeWeightD "t" "0" + tol < c2t2G.edgeWeightD "t" "1" ∧
     find_max_edge_node c2t2G "t" = .ok (some "0")) := by
  refine ⟨⟨?_, ?_, ?_⟩, ?_, ?_⟩ <;> decide

/-- Precondition under which the grafo.py selection rule is well behaved:
every two neighbor weights are either exactly equal or separated by more
than the tolerance, and minimum leaf indices are pairwise distinct. -/
def sep_or_eq_idx : List (String × Rat) → Bool
  | [] => true
  | p :: l =>
      (l.all (fun q =>
        ((q.2 == p.2) || decide (tol < |p.2 - q.2|)) &&
        !(small_of p.1 == small_of q.1))) && sep_or_eq_idx l

/-- The relation behind `sep_or_eq_idx`. -/
def fm_ok (p q : String × Rat) : Prop :=
  (q.2 = p.2 ∨ tol < |p.2 - q.2|) ∧ small_of p.1 ≠ small_of q.1

theorem sep_pairwise (l : List (String × Rat)) (h : sep_or_eq_idx l = true) :
    l.Pairwise fm_ok := by
  induction l with
  | nil => exact List.Pairwise.nil
  | cons p l ih =>
      simp only [sep_or_eq_idx, Bool.and_eq_true, List.all_eq_true] at h
      refine List.Pairwise.cons ?_ (ih h.2)
      intro q hq
      have h1 := h.1 q hq
      simp only [Bool.and_eq_true, Bool.or_eq_true, beq_iff_eq, decide_eq_true_eq,
        Bool.not_eq_true', beq_eq_false_iff_ne] at h1
      exact ⟨h1.1, h1.2⟩

/-- `x` loses against `y` under the (weight, then smaller minimum leaf
index) preference. -/
def worse (x y : String × Rat) : Prop :=
  x.2 < y.2 ∨ (x.2 = y.2 ∧ small_of y.1 < small_of x.1)

theorem worse_trans {x y z : String × Rat} (h1 : worse x y) (h2 : worse y z) :
    worse x z := by
  rcases h1 with h1 | ⟨h1a, h1b⟩ <;> rcases h2 with h2 | ⟨h2a, h2b⟩
  · exact Or.inl (lt_trans h1 h2)
  · exact Or.inl (h2a ▸ h1)
  · exact Or.inl (h1a ▸ h2)
  · exact Or.inr ⟨h1a.trans h2a, lt_trans h2b h1b⟩

theorem tol_pos : (0 : Rat) < tol := by norm_num [tol]

theorem find_smallest_eq (a b : String) :
    find_smallest_number a b = (small_of a, small_of b) := rfl

theorem fmen_fold_spec (l : List (String × Rat)) :
    ∀ (mw : Rat) (men : String),
      ((men, mw) :: l).Pairwise fm_ok →
      ∃ m w, l.foldl fmen_step (some (mw, men)) = some (w, m) ∧
        (m, w) ∈ (men, mw) :: l ∧
        ∀ x ∈ (men, mw) :: l, x ≠ (m, w) → worse x (m, w) := by
  induction l with
  | nil =>
      intro mw men _
      refine ⟨men, mw, rfl, List.mem_cons_self _ _, ?_⟩
      intro x hx hxne
      simp only [List.mem_cons, List.not_mem_nil, or_false] at hx
      exact absurd hx hxne
  | cons p l ih =>
      intro mw men hpw
      obtain ⟨pn, pw⟩ := p
      have hhead : ∀ q ∈ (pn, pw) :: l, fm_ok (men, mw) q := (List.pairwise_cons.1 hpw).1
      have htail : ((pn, pw) :: l).Pairwise fm_ok := (List.pairwise_cons.1 hpw).2
      have hfm : fm_ok (men, mw) (pn, pw) := hhead _ (List.mem_cons_self _ _)
      have hsep : pw = mw ∨ tol < |mw - pw| := hfm.1
      have hsm : small_of men ≠ small_of pn := hfm.2
      have hpw2 : ((men, mw) :: l).Pairwise fm_ok :=
        List.Pairwise.cons (fun q hq => hhead q (List.mem_cons_of_mem _ hq))
          (List.Pairwise.of_cons htail)
      rcases hsep with hEq | hFar
      · subst hEq
        have hstep : fmen_step (some (pw, men)) (pn, pw) =
            if small_of pn < small_of men then some (pw, pn) else some (pw, men) := by
          simp only [fmen_step, find_smallest_eq]
          rw [if_neg (by linarith [tol_pos]), if_pos (by simp [tol_pos])]
        by_cases hlt : small_of pn < small_of men
        · obtain ⟨m, w, hfold, hmem, hworse⟩ := ih pw pn htail
          refine ⟨m, w, ?_, List.mem_cons_of_mem _ hmem, ?_⟩
          · rw [List.foldl_cons, hstep, if_pos hlt]
            exact hfold
          · intro x hx hxne
            rcases List.mem_cons.1 hx with rfl | hx2
            · have hw1 : worse (men, pw) (pn, pw) := Or.inr ⟨rfl, hlt⟩
              rcases eq_or_ne (pn, pw) (m, w) with he | hne2
              · exact he ▸ hw1
              · exact worse_trans hw1 (hworse _ (List.mem_cons_self _ _) hne2)
            · exact hworse x hx2 hxne
        · obtain ⟨m, w, hfold, hmem, hworse⟩ := ih pw men hpw2
          refine ⟨m, w, ?_, ?_, ?_⟩
          · rw [List.foldl_cons, hstep, if_neg hlt]
            exact hfold
          · rcases List.mem_cons.1 hmem with he | hm2
            · exact he ▸ List.mem_cons_self _ _
            · exact List.mem_cons_of_mem _ (List.mem_cons_of_mem _ hm2)
          · intro x hx hxne
            rcases List.mem_cons.1 hx with rfl | hx2
            · exact hworse _ (List.mem_cons_self _ _) hxne
            rcases List.mem_cons.1 hx2 with rfl | hx3
            · have hlt2 : small_of men < small_of pn := lt_of_le_of_ne (not_lt.1 hlt) hsm
              have hw1 : worse (pn, pw) (men, pw) := Or.inr ⟨rfl, hlt2⟩
              rcases eq_or_ne (men, pw) (m, w) with he | hne2
              · exact he ▸ hw1
              · exact worse_trans hw1 (hworse _ (List.mem_cons_self _ _) hne2)
            · exact hworse x (List.mem_cons_of_mem _ hx3) hxne
      · have hne0 : pw ≠ mw := by
          intro he
          rw [he, sub_self, abs_zero] at hFar
          linarith [tol_pos]
        rcases lt_or_gt_of_ne hne0 with hlt | hgt
        · have habs : |mw - pw| = mw - pw := abs_of_pos (by linarith)
          have hstep : fmen_step (some (mw, men)) (pn, pw) = some (mw, men) := by
            simp only [fmen_step]
            rw [if_neg (by linarith [tol_pos]), if_neg ?_]
            rw [abs_sub_comm, habs]
            linarith
          obtain ⟨m, w, hfold, hmem, hworse⟩ := ih mw men hpw2
          refine ⟨m, w, ?_, ?_, ?_⟩
          · rw [List.foldl_cons, hstep]
            exact hfold
          · rcases List.mem_cons.1 hmem with he | hm2
            · exact he ▸ List.mem_cons_self _ _
            · exact List.mem_cons_of_mem _ (List.mem_cons_of_mem _ hm2)
          · intro x hx hxne
            rcases List.mem_cons.1 hx with rfl | hx2
            · exact hworse _ (List.mem_cons_self _ _) hxne
            rcases List.mem_cons.1 hx2 with rfl | hx3
            · have hw1 : worse (pn, pw) (men, mw) := Or.inl hlt
              rcases eq_or_ne (men, mw) (m, w) with he | hne2
              · exact he ▸ hw1
              · exact worse_trans hw1 (hworse _ (List.mem_cons_self _ _) hne2)
            · exact hworse x (List.mem_cons_of_mem _ hx3) hxne
        · have habs : |mw - pw| = pw - mw := by
            rw [abs_sub_comm]
            exact abs_of_pos (by linarith)
          have hgt2 : pw > mw + tol := by
            rw [habs] at hFar
            linarith
          have hstep : fmen_step (some (mw, men)) (pn, pw) = some (pw, pn) := by
            simp only [fmen_step]
            rw [if_pos hgt2]
          obtain ⟨m, w, hfold, hmem, hworse⟩ := ih pw pn htail
          refine ⟨m, w, ?_, List.mem_cons_of_mem _ hmem, ?_⟩
          · rw [List.foldl_cons, hstep]
            exact hfold
          · intro x hx hxne
            rcases List.mem_cons.1 hx with rfl | hx2
            · have hw1 : worse (men, mw) (pn, pw) := Or.inl hgt
              rcases eq_or_ne (pn, pw) (m, w) with he | hne2
              · exact he ▸ hw1
              · exact worse_trans hw1 (hworse _ (List.mem_cons_self _ _) hne2)
            · exact hworse x hx2 hxne

/-- C2 amended: in grafo.py, whenever the target's neighbor weights are
pairwise either exactly equal or separated by more than the `1e-6`
tolerance and the neighbors' minimum leaf indices are pairwise distinct,
`find_max_edge_node` returns the neighbor with the greatest weight,
preferring under exact ties the neighbor with the smaller minimum
contained leaf index.  (The original claim fails: grafo1.py has no
tie-break at all, and inside chained tolerance windows grafo.py can
return a non-maximal neighbor, dependent on adjacency order.) -/
theorem find_max_tiebreak_spec (g : Graph) (target : String)
    (ht : target ∈ g.nodesL) (hne : g.adjOf target ≠ [])
    (hsep : sep_or_eq_idx (g.adjOf target) = true) :
    ∃ m w, find_max_edge_node g target = .ok (some m) ∧
      (m, w) ∈ g.adjOf target ∧
      ∀ x ∈ g.adjOf target, x.1 ≠ m →
        x.2 < w ∨ (x.2 = w ∧ small_of m < small_of x.1) := by
  obtain ⟨p, l, hpl⟩ : ∃ p l, g.adjOf target = p :: l := by
    cases h : g.adjOf target with
    | nil => exact absurd h hne
    | cons p l => exact ⟨p, l, rfl⟩
  obtain ⟨pn, pw⟩ := p
  have hp : ((pn, pw) :: l).Pairwise fm_ok := sep_pairwise _ (hpl ▸ hsep)
  obtain ⟨m, w, hfold, hmem, hworse⟩ := fmen_fold_spec l pw pn hp
  refine ⟨m, w, ?_, hpl ▸ hmem, ?_⟩
  · simp only [find_max_edge_node, if_pos ht, hpl, List.foldl_cons]
    have h1 : fmen_step none (pn, pw) = some (pw, pn) := rfl
    rw [h1, hfold]
    rfl
  · intro x hx hxm
    have hxne : x ≠ (m, w) := fun he => hxm (by rw [he])
    exact hworse x (hpl ▸ hx) hxne

theorem find_max_tiebreak_spec_witness :
    (("0" : String) ∈ c2t1G.nodesL ∧ c2t1G.adjOf "0" ≠ [] ∧
      sep_or_eq_idx (c2t1G.adjOf "0") = true) ∧
    (∃ m w, find_max_edge_node c2t1G "0" = .ok (some m) ∧
      (m, w) ∈ c2t1G.adjOf "0" ∧
      ∀ x ∈ c2t1G.adjOf "0", x.1 ≠ m →
        x.2 < w ∨ (x.2 = w ∧ small_of m < small_of x.1)) :=
  ⟨⟨by decide, by decide, by decide⟩,
   find_max_tiebreak_spec c2t1G "0" (by decide) (by decide) (by decide)⟩

/-! ### Claim C3: reset fidelity -/

theorem merge_nodes_frame (a b : String) (s t : GState)
    (hok : merge_nodes a b s = .ok t) :
    t.original_G = s.original_G ∧ t.original_pos = s.original_pos ∧
    t.shrinked_nodes = s.shrinked_nodes ∧ t.last_merged_nodes = s.last_merged_nodes ∧
    t.initial_nodes = s.initial_nodes ∧ t.merged_node = s.merged_node ∧
    t.merged_nodes = s.merged_nodes ++ [a, b] := by
  simp only [merge_nodes] at hok
  split at hok
  · split at hok
    · cases hok
      exact ⟨rfl, rfl, rfl, rfl, rfl, rfl, rfl⟩
    · simp at hok
  · simp at hok

theorem apply_merges_frame (ps : List (String × String)) (s t : GState)
    (hok : apply_merges ps s = .ok t) :
    t.original_G = s.original_G ∧ t.original_pos = s.original_pos ∧
    t.shrinked_nodes = s.shrinked_nodes ∧ t.last_merged_nodes = s.last_merged_nodes ∧
    t.initial_nodes = s.initial_nodes ∧ t.merged_node = s.merged_node ∧
    t.merged_nodes = s.merged_nodes ++ flat_pairs ps := by
  induction ps generalizing s with
  | nil =>
      cases hok
      refine ⟨rfl, rfl, rfl, rfl, rfl, rfl, ?_⟩
      simp [flat_pairs]
  | cons p ps ih =>
      unfold apply_merges at hok
      split at hok
      · next s3 heq =>
          obtain ⟨h1, h2, h3, h4, h5, h6, h7⟩ := ih s3 hok
          obtain ⟨g1, g2, g3, g4, g5, g6, g7⟩ := merge_nodes_frame p.1 p.2 s s3 heq
          refine ⟨h1.trans g1, h2.trans g2, h3.trans g3, h4.trans g4,
            h5.trans g5, h6.trans g6, ?_⟩
          rw [h7, g7]
          simp [flat_pairs]
      · simp at hok

/-- C3: whatever merges were performed beforehand, `reset_graph` rebuilds
exactly the snapshot with the recorded shrink checkpoints replayed in
order, resets the anchor to `"0"`, and the history holds only the replay
of the checkpoints (the pre-reset volatile history is gone). -/
theorem reset_fidelity (s s1 s2 : GState) (ms : List (String × String))
    (hm : apply_merges ms s = .ok s1) (hr : reset_graph s1 = .ok s2) :
    (∃ t, apply_merges s.shrinked_nodes (restore_state s) = .ok t ∧
      s2.G = t.G ∧ s2.pos = t.pos) ∧
    s2.merged_node = "0" ∧
    s2.merged_nodes = flat_pairs s.shrinked_nodes := by
  obtain ⟨hog, hop, hsh, hlm, hin, hmn, hmg⟩ := apply_merges_frame ms s s1 hm
  have hrs : restore_state s1 = restore_state s := by
    simp only [restore_state, hog, hop, hlm, hsh, hin]
  unfold reset_graph at hr
  rw [hsh, hrs] at hr
  split at hr
  · next t heq =>
      cases hr
      obtain ⟨_, _, _, _, _, hmn2, hmg2⟩ :=
        apply_merges_frame s.shrinked_nodes (restore_state s) t heq
      refine ⟨⟨t, heq, rfl, rfl⟩, ?_, ?_⟩
      · exact hmn2
      · rw [hmg2]
        rfl
  · simp at hr

def c3G : Graph :=
  ⟨[("0", [("1", 1), ("2", 5)]), ("1", [("0", 1), ("2", 2)]), ("2", [("0", 5), ("1", 2)])]⟩

def c3pos : List (String × (Rat × Rat)) :=
  [("0", (0, 0)), ("1", (1, 0)), ("2", (0, 1))]

/-- A 3-node state that already carries one shrink checkpoint `("1","2")`. -/
def c3s : GState :=
  { G := c3G, pos := c3pos, merged_node := "0", last_merged_nodes := [],
    merged_nodes := [], shrinked_nodes := [("1", "2")],
    initial_nodes := ["0", "1", "2"], original_G := c3G, original_pos := c3pos }

def c3s1 : GState := except_state (apply_merges [("0", "1")] c3s)

def c3s2 : GState := except_state (reset_graph c3s1)

theorem reset_fidelity_witness :
    (apply_merges [("0", "1")] c3s = .ok c3s1 ∧ reset_graph c3s1 = .ok c3s2) ∧
    ((∃ t, apply_merges c3s.shrinked_nodes (restore_state c3s) = .ok t ∧
        c3s2.G = t.G ∧ c3s2.pos = t.pos) ∧
      c3s2.merged_node = "0" ∧
      c3s2.merged_nodes = flat_pairs c3s.shrinked_nodes) :=
  ⟨⟨by decide, by decide⟩,
   reset_fidelity c3s c3s1 c3s2 [("0", "1")] (by decide) (by decide)⟩

/-! ### Claim C1: weight conservation under merge -/

theorem mem_dedup_aux (l : List String) :
    ∀ (seen : List String) (x : String),
      x ∈ dedup_aux l seen ↔ x ∈ l ∧ x ∉ seen := by
  induction l with
  | nil => intro seen x; simp [dedup_aux]
  | cons y ys ih =>
      intro seen x
      by_cases hy : y ∈ seen
      · simp only [dedup_aux, hy, if_true]
        rw [ih]
        constructor
        · rintro ⟨h1, h2⟩
          exact ⟨List.mem_cons_of_mem _ h1, h2⟩
        · rintro ⟨h1, h2⟩
          rcases List.mem_cons.1 h1 with rfl | h3
          · exact absurd hy h2
          · exact ⟨h3, h2⟩
      · simp only [dedup_aux, hy, if_false]
        constructor
        · intro hmem
          rcases List.mem_cons.1 hmem with rfl | h1
          · exact ⟨List.mem_cons_self _ _, hy⟩
          · obtain ⟨h2, h3⟩ := (ih (y :: seen) x).1 h1
            exact ⟨List.mem_cons_of_mem _ h2, fun h4 => h3 (List.mem_cons_of_mem _ h4)⟩
        · rintro ⟨h1, h2⟩
          rcases List.mem_cons.1 h1 with rfl | h3
          · exact List.mem_cons_self _ _
          · by_cases hxy : x = y
            · exact hxy ▸ List.mem_cons_self _ _
            · refine List.mem_cons_of_mem _ ((ih (y :: seen) x).2 ⟨h3, ?_⟩)
              intro h4
              rcases List.mem_cons.1 h4 with h5 | h5
              · exact hxy h5
              · exact h2 h5

theorem nodup_dedup_aux (l : List String) :
    ∀ seen : List String, (dedup_aux l seen).Nodup := by
  induction l with
  | nil => intro seen; exact List.nodup_nil
  | cons y ys ih =>
      intro seen
      by_cases hy : y ∈ seen
      · simpa [dedup_aux, hy] using ih seen
      · simp only [dedup_aux, hy, if_false]
        refine List.Nodup.cons ?_ (ih (y :: seen))
        intro hmem
        exact ((mem_dedup_aux ys (y :: seen) y).1 hmem).2 (List.mem_cons_self _ _)

theorem mem_dedup_str (l : List String) (x : String) :
    x ∈ dedup_str l ↔ x ∈ l := by
  simp [dedup_str, mem_dedup_aux]

theorem nodup_dedup_str (l : List String) : (dedup_str l).Nodup :=
  nodup_dedup_aux l []

theorem mem_nbr_union (g : Graph) (a b k : String) :
    k ∈ g.nbr_union a b ↔ k ∈ g.neighbors a ∨ k ∈ g.neighbors b := by
  simp [Graph.nbr_union, mem_dedup_str]

/-- Keys of the computed edge dict: the union minus the merged nodes. -/
theorem keys_merge_edges (g : Graph) (a b : String) :
    alist_keys (merge_edges g a b)
      = (g.nbr_union a b).filter (fun x => decide ¬(x = a ∨ x = b)) := by
  unfold merge_edges
  generalize g.nbr_union a b = u
  induction u with
  | nil => rfl
  | cons x xs ih =>
      rw [List.filterMap_cons, List.filter_cons]
      by_cases hx : x = a ∨ x = b
      · rw [if_pos hx]
        have hd : (decide ¬(x = a ∨ x = b)) = false := by simp [hx]
        rw [hd]
        simpa using ih
      · rw [if_neg hx]
        have hd : (decide ¬(x = a ∨ x = b)) = true := by simp [hx]
        rw [hd]
        simp only [alist_keys, List.map_cons, cond_true]
        rw [show List.map Prod.fst
            (List.filterMap (fun k =>
              if k = a ∨ k = b then none
              else some (k, g.edgeWeightD a k + g.edgeWeightD b k)) xs)
          = alist_keys (List.filterMap (fun k =>
              if k = a ∨ k = b then none
              else some (k, g.edgeWeightD a k + g.edgeWeightD b k)) xs) from rfl, ih]
        simp

theorem merge_edges_get (g : Graph) (a b k : String) (hka : k ≠ a) (hkb : k ≠ b) :
    alist_get (merge_edges g a b) k
      = if k ∈ g.nbr_union a b
          then some (g.edgeWeightD a k + g.edgeWeightD b k)
          else none := by
  unfold merge_edges
  generalize g.nbr_union a b = u
  induction u with
  | nil => rfl
  | cons x xs ih =>
      rw [List.filterMap_cons]
      by_cases hx : x = a ∨ x = b
      · have hkx : k ≠ x := by
          rcases hx with rfl | rfl
          · exact hka
          · exact hkb
        rw [if_pos hx, ih]
        simp [List.mem_cons, hkx]
      · rw [if_neg hx]
        by_cases hkx : x = k
        · subst hkx
          simp [alist_get, List.mem_cons]
        · have hkx2 : k ≠ x := fun h => hkx h.symm
          simp only [alist_get, hkx, if_false]
          rw [ih]
          simp [List.mem_cons, hkx2]

theorem alist_set_set_same {β : Type} (l : List (String × β)) (k : String) (v : β) :
    alist_set (alist_set l k v) k v = alist_set l k v := by
  induction l with
  | nil => simp [alist_set]
  | cons p rest ih =>
      obtain ⟨a, b⟩ := p
      by_cases h : a = k
      · simp [alist_set, h]
      · simp [alist_set, h, ih]

theorem mem_keys_alist_set {β : Type} (l : List (String × β)) (k y : String) (v : β) :
    y ∈ alist_keys (alist_set l k v) ↔ y ∈ alist_keys l ∨ y = k := by
  induction l with
  | nil => simp [alist_set, alist_keys]
  | cons p rest ih =>
      obtain ⟨a, b⟩ := p
      by_cases h : a = k
      · subst h
        simp [alist_set, alist_keys, List.mem_cons]
        tauto
      · simp only [alist_set, h, if_false, alist_keys, List.map_cons, List.mem_cons]
        rw [show List.map Prod.fst (alist_set rest k v)
            = alist_keys (alist_set rest k v) from rfl, ih]
        tauto

theorem add_node_of_mem (g : Graph) (v : String) (h : v ∈ g.nodesL) :
    g.add_node v = g := by
  simp [Graph.add_node, h]

theorem mem_nodes_add_node (g : Graph) (v y : String) (h : y ∈ g.nodesL) :
    y ∈ (g.add_node v).nodesL := by
  unfold Graph.add_node
  split
  · exact h
  · simp only [Graph.nodesL, alist_keys] at h ⊢
    simp [h]

theorem adjOf_add_node_of_mem (g : Graph) (v y : String) (h : y ∈ g.nodesL) :
    (g.add_node v).adjOf y = g.adjOf y := by
  unfold Graph.add_node
  split
  · rfl
  · simp only [Graph.adjOf]
    rw [alist_get_append_left]
    exact h

/-- The two dict writes of `add_edge u v w`, after the `add_node` calls. -/
def add_edge_writes (g1 : Graph) (new k : String) (w : Rat) : Graph :=
  ⟨alist_set (⟨alist_set g1.adj new (alist_set (g1.adjOf new) k w)⟩ : Graph).adj k
    (alist_set ((⟨alist_set g1.adj new (alist_set (g1.adjOf new) k w)⟩ : Graph).adjOf k) new w)⟩

theorem add_edge_eq_writes (g : Graph) (u v : String) (w : Rat) :
    g.add_edge u v w = add_edge_writes ((g.add_node u).add_node v) u v w := rfl

theorem add_edge_core (g1 : Graph) (new k : String) (w : Rat) :
    (add_edge_writes g1 new k w).adjOf new = alist_set (g1.adjOf new) k w ∧
    new ∈ (add_edge_writes g1 new k w).nodesL := by
  constructor
  · by_cases hkn : k = new
    · subst hkn
      simp only [add_edge_writes, Graph.adjOf]
      rw [alist_get_set_eq, alist_get_set_eq]
      simp only [Option.getD_some]
      rw [alist_set_set_same]
    · simp only [add_edge_writes, Graph.adjOf]
      rw [alist_get_set_ne _ _ _ _ (fun h2 => hkn h2.symm), alist_get_set_eq]
      rfl
  · simp only [add_edge_writes, Graph.nodesL]
    refine (mem_keys_alist_set _ k new _).2 (Or.inl ?_)
    exact (mem_keys_alist_set _ new new _).2 (Or.inr rfl)

/-- Adjacency of the composite node through one `add_edge new k w` call:
the inner dict gets `k ↦ w` written (and nothing else), provided `new`
already exists. -/
theorem add_edge_self_adjOf (h : Graph) (new k : String) (w : Rat)
    (hmem : new ∈ h.nodesL) :
    (h.add_edge new k w).adjOf new = alist_set (h.adjOf new) k w ∧
    new ∈ (h.add_edge new k w).nodesL := by
  have ha1 : ((h.add_node new).add_node k).adjOf new = h.adjOf new := by
    rw [add_node_of_mem h new hmem]
    exact adjOf_add_node_of_mem h k new hmem
  have key := add_edge_core ((h.add_node new).add_node k) new k w
  rw [ha1] at key
  rw [add_edge_eq_writes]
  exact key

/-- Folding `add_edge new · ·` over the edge dict writes exactly those
entries into the composite node's adjacency dict. -/
theorem fold_add_edge_adjOf (es : List (String × Rat)) :
    ∀ (h : Graph) (new : String), new ∈ h.nodesL →
      ((es.foldl (fun g2 p => g2.add_edge new p.1 p.2) h).adjOf new
          = es.foldl (fun inr p => alist_set inr p.1 p.2) (h.adjOf new)) ∧
      new ∈ (es.foldl (fun g2 p => g2.add_edge new p.1 p.2) h).nodesL := by
  induction es with
  | nil => intro h new hmem; exact ⟨rfl, hmem⟩
  | cons p ps ih =>
      intro h new hmem
      obtain ⟨hstep, hstepmem⟩ := add_edge_self_adjOf h new p.1 p.2 hmem
      obtain ⟨h1, h2⟩ := ih (h.add_edge new p.1 p.2) new hstepmem
      refine ⟨?_, by simpa using h2⟩
      simp only [List.foldl_cons]
      rw [h1, hstep]

/-- Writing a nodup-keyed list of entries into an empty dict, in order,
yields lookups that agree with the list itself. -/
theorem fold_alist_set_get (es : List (String × Rat)) :
    ∀ (l0 : List (String × Rat)) (k : String), (alist_keys es).Nodup →
      alist_get (es.foldl (fun l p => alist_set l p.1 p.2) l0) k
        = if k ∈ alist_keys es then alist_get es k else alist_get l0 k := by
  induction es with
  | nil => intro l0 k _; simp [alist_keys]
  | cons p ps ih =>
      intro l0 k hnd
      obtain ⟨q, v⟩ := p
      have hq : q ∉ alist_keys ps := by
        intro hmem
        exact (List.nodup_cons.1 hnd).1 hmem
      have hnd2 : (alist_keys ps).Nodup := (List.nodup_cons.1 hnd).2
      simp only [List.foldl_cons]
      rw [ih (alist_set l0 q v) k hnd2]
      simp only [show alist_keys ((q, v) :: ps) = q :: alist_keys ps from rfl]
      by_cases hk : k ∈ alist_keys ps
      · have hqk : q ≠ k := fun h2 => hq (h2 ▸ hk)
        rw [if_pos hk, if_pos (List.mem_cons_of_mem _ hk)]
        show alist_get ps k = alist_get ((q, v) :: ps) k
        simp [alist_get, hqk]
      · by_cases hqk : q = k
        · subst hqk
          rw [if_neg hk, if_pos (List.mem_cons_self _ _), alist_get_set_eq]
          simp [alist_get]
        · have hnotin : k ∉ q :: alist_keys ps := by
            intro hm
            rcases List.mem_cons.1 hm with h5 | h5
            · exact hqk h5.symm
            · exact hk h5
          rw [if_neg hk, if_neg hnotin,
            alist_get_set_ne _ _ _ _ (fun h2 => hqk h2.symm)]

theorem keys_map_filter (adj : List (String × List (String × Rat))) (l : List String) :
    alist_keys ((adj.filter (fun p => p.1 ∉ l)).map
        (fun p => (p.1, p.2.filter (fun q => q.1 ∉ l))))
      = (alist_keys adj).filter (fun x => x ∉ l) := by
  induction adj with
  | nil => rfl
  | cons p rest ih =>
      by_cases hp : p.1 ∈ l
      · simpa [hp, List.filter_cons, alist_keys, List.map_map] using ih
      · simpa [hp, List.filter_cons, alist_keys, List.map_map] using ih

theorem remove_keys (g : Graph) (l : List String) :
    (g.remove_nodes_from l).nodesL = g.nodesL.filter (fun x => x ∉ l) :=
  keys_map_filter g.adj l

/-- The heart of C1: in the graph produced by `merge_nodes`, the composite
node's edge weight to any external node `k` is the sum of the two
pre-merge weights, a missing edge counting as `0`. -/
theorem merge_graph_weightD (g : Graph) (a b k : String)
    (hfresh : (a ++ "," ++ b) ∉ g.nodesL) (hka : k ≠ a) (hkb : k ≠ b) :
    (merge_graph g a b).edgeWeightD (a ++ "," ++ b) k
      = g.edgeWeightD a k + g.edgeWeightD b k := by
  set new := a ++ "," ++ b with hnew
  set es := merge_edges g a b with hes
  set g0 := g.remove_nodes_from [a, b] with hg0
  have hfresh0 : new ∉ g0.nodesL := by
    rw [hg0, remove_keys]
    intro hmem
    exact hfresh (List.mem_of_mem_filter hmem)
  set g1 := g0.add_node new with hg1
  have hmem1 : new ∈ g1.nodesL := by
    rw [hg1]
    unfold Graph.add_node
    rw [if_neg hfresh0]
    simp [Graph.nodesL, alist_keys]
  have hadj1 : g1.adjOf new = [] := by
    rw [hg1]
    unfold Graph.add_node
    rw [if_neg hfresh0]
    simp only [Graph.adjOf]
    rw [alist_get_append_right _ _ _ hfresh0]
    simp [alist_get]
  have hnodup : (alist_keys es).Nodup := by
    rw [hes, keys_merge_edges]
    exact (nodup_dedup_str _).filter _
  have hfold := fold_add_edge_adjOf es g1 new hmem1
  show ((es.foldl (fun g2 p => g2.add_edge new p.1 p.2) g1).edgeWeightD new k) = _
  simp only [Graph.edgeWeightD]
  rw [hfold.1, hadj1, fold_alist_set_get es [] k hnodup]
  by_cases hku : k ∈ alist_keys es
  · rw [if_pos hku]
    have hget := merge_edges_get g a b k hka hkb
    have hkuu : k ∈ g.nbr_union a b := by
      rw [hes, keys_merge_edges] at hku
      exact List.mem_of_mem_filter hku
    rw [hes, hget, if_pos hkuu]
    rfl
  · rw [if_neg hku]
    have hkuu : k ∉ g.nbr_union a b := by
      intro hmem
      apply hku
      rw [hes, keys_merge_edges]
      exact List.mem_filter.2 ⟨hmem, by simp [hka, hkb]⟩
    have hna : k ∉ g.neighbors a := fun h => hkuu ((mem_nbr_union g a b k).2 (Or.inl h))
    have hnb : k ∉ g.neighbors b := fun h => hkuu ((mem_nbr_union g a b k).2 (Or.inr h))
    have hwa : g.edgeWeightD a k = 0 := by
      simp only [Graph.edgeWeightD]
      rw [alist_get_eq_none _ _ hna]
      rfl
    have hwb : g.edgeWeightD b k = 0 := by
      simp only [Graph.edgeWeightD]
      rw [alist_get_eq_none _ _ hnb]
      rfl
    have hwa2 : (alist_get (g.adjOf a) k).getD 0 = (0 : Rat) := hwa
    have hwb2 : (alist_get (g.adjOf b) k).getD 0 = (0 : Rat) := hwb
    rw [hwa2, hwb2]
    simp [alist_get]

theorem merge_nodes_G (a b : String) (s t : GState)
    (hok : merge_nodes a b s = .ok t) : t.G = merge_graph s.G a b := by
  simp only [merge_nodes] at hok
  split at hok
  · split at hok
    · cases hok
      rfl
    · simp at hok
  · simp at hok

theorem merge_nodes1_G (a b : String) (s t : GState1)
    (hok : merge_nodes1 a b s = .ok t) : t.G = merge_graph s.G a b := by
  simp only [merge_nodes1] at hok
  split at hok
  · split at hok
    · cases hok
      rfl
    · simp at hok
  · simp at hok

/-- C1: after a successful `merge(a, b)` whose composite identifier is not
already a node (the data-model invariant: composite identifiers are never
reused in the live graph), the weight of the edge from the new node to
any external node `k` is the sum of the pre-merge weights of `(a, k)` and
`(b, k)`, a missing edge counting as weight `0` — in both scripts. -/
theorem merge_weight_conservation (a b k : String) (hka : k ≠ a) (hkb : k ≠ b) :
    (∀ s t : GState, merge_nodes a b s = .ok t → (a ++ "," ++ b) ∉ s.G.nodesL →
      t.G.edgeWeightD (a ++ "," ++ b) k
        = s.G.edgeWeightD a k + s.G.edgeWeightD b k) ∧
    (∀ s t : GState1, merge_nodes1 a b s = .ok t → (a ++ "," ++ b) ∉ s.G.nodesL →
      t.G.edgeWeightD (a ++ "," ++ b) k
        = s.G.edgeWeightD a k + s.G.edgeWeightD b k) := by
  constructor
  · intro s t hok hfresh
    rw [merge_nodes_G a b s t hok]
    exact merge_graph_weightD s.G a b k hfresh hka hkb
  · intro s t hok hfresh
    rw [merge_nodes1_G a b s t hok]
    exact merge_graph_weightD s.G a b k hfresh hka hkb

theorem merge_weight_conservation_witness :
    (("2" : String) ≠ "0" ∧ ("2" : String) ≠ "1" ∧
      merge_nodes "0" "1" c3s = .ok c3s1 ∧ ("0,1" : String) ∉ c3s.G.nodesL) ∧
    c3s1.G.edgeWeightD "0,1" "2"
      = c3s.G.edgeWeightD "0" "2" + c3s.G.edgeWeightD "1" "2" :=
  ⟨⟨by decide, by decide, by decide, by decide⟩,
   (merge_weight_conservation "0" "1" "2" (by decide) (by decide)).1 c3s c3s1
     (by decide) (by decide)⟩

/-! ### Claim C8: node count -/

theorem alist_keys_append {β : Type} (l1 l2 : List (String × β)) :
    alist_keys (l1 ++ l2) = alist_keys l1 ++ alist_keys l2 := by
  simp [alist_keys]

theorem alist_get_mem_keys {β : Type} (l : List (String × β)) (k : String)
    (h : k ∈ alist_keys l) : ∃ v, alist_get l k = some v := by
  induction l with
  | nil => simp [alist_keys] at h
  | cons p rest ih =>
      obtain ⟨a, b⟩ := p
      by_cases hak : a = k
      · exact ⟨b, by simp [alist_get, hak]⟩
      · simp only [alist_keys, List.map_cons, List.mem_cons] at h
        rcases h with h | h
        · exact absurd h.symm hak
        · obtain ⟨v, hv⟩ := ih h
          exact ⟨v, by simp [alist_get, hak, hv]⟩

theorem alist_get_mem {β : Type} (l : List (String × β)) (k : String) (v : β)
    (h : alist_get l k = some v) : (k, v) ∈ l := by
  induction l with
  | nil => simp [alist_get] at h
  | cons p rest ih =>
      obtain ⟨a, b⟩ := p
      by_cases hak : a = k
      · subst hak
        simp only [alist_get, if_pos rfl] at h
        cases h
        exact List.mem_cons_self _ _
      · simp only [alist_get, hak, if_false] at h
        exact List.mem_cons_of_mem _ (ih h)

theorem mem_alist_set_elim {β : Type} (l : List (String × β)) (k : String) (v : β)
    (p : String × β) (h : p ∈ alist_set l k v) : p ∈ l ∨ p = (k, v) := by
  induction l with
  | nil => simpa [alist_set] using h
  | cons q rest ih =>
      obtain ⟨a, b⟩ := q
      by_cases hak : a = k
      · simp only [alist_set, hak, if_pos rfl] at h
        rcases List.mem_cons.1 h with rfl | h2
        · exact Or.inr rfl
        · exact Or.inl (List.mem_cons_of_mem _ h2)
      · simp only [alist_set, hak, if_false] at h
        rcases List.mem_cons.1 h with rfl | h2
        · exact Or.inl (List.mem_cons_self _ _)
        · rcases ih h2 with h3 | h3
          · exact Or.inl (List.mem_cons_of_mem _ h3)
          · exact Or.inr h3

theorem length_filter_single (l : List String) (b : String) (hnd : l.Nodup)
    (hb : b ∈ l) : (l.filter (fun x => x ≠ b)).length + 1 = l.length := by
  induction l with
  | nil => cases hb
  | cons x xs ih =>
      obtain ⟨hx, hnd2⟩ := List.nodup_cons.1 hnd
      by_cases hxb : x = b
      · subst hxb
        have hfe : xs.filter (fun y => y ≠ x) = xs :=
          List.filter_eq_self.2 (fun y hy => decide_eq_true (fun h2 => hx (h2 ▸ hy)))
        simp [List.filter_cons, hfe]
        intro y hy h2
        exact hx (h2 ▸ hy)
      · have hbx : b ∈ xs := by
          rcases List.mem_cons.1 hb with h2 | h2
          · exact absurd h2.symm hxb
          · exact h2
        have hrec := ih hnd2 hbx
        have hcond : (decide (x ≠ b)) = true := decide_eq_true hxb
        rw [List.filter_cons, hcond, if_pos rfl]
        simp only [List.length_cons]
        omega

theorem length_filter_pair (l : List String) (a b : String) (hnd : l.Nodup)
    (ha : a ∈ l) (hb : b ∈ l) (hab : a ≠ b) :
    (l.filter (fun x => x ∉ [a, b])).length + 2 = l.length := by
  have hsplit : l.filter (fun x => x ∉ [a, b])
      = (l.filter (fun x => x ≠ a)).filter (fun x => x ≠ b) := by
    rw [List.filter_filter]
    refine List.filter_congr ?_
    intro x _
    by_cases hxa : x = a
    · simp [hxa, List.mem_cons]
    · by_cases hxb : x = b
      · simp [hxa, hxb, List.mem_cons]
      · simp [hxa, hxb, List.mem_cons]
  rw [hsplit]
  have h1 : (l.filter (fun x => x ≠ a)).Nodup := hnd.filter _
  have hbmem : b ∈ l.filter (fun x => x ≠ a) :=
    List.mem_filter.2 ⟨hb, decide_eq_true (fun h2 => hab h2.symm)⟩
  have h2 := length_filter_single (l.filter (fun x => x ≠ a)) b h1 hbmem
  have h3 := length_filter_single l a hnd ha
  omega

/-- Every neighbor referenced in an adjacency dict is itself a node
(always true of a real `networkx` graph). -/
def graph_closed (g : Graph) : Bool :=
  g.adj.all (fun p => p.2.all (fun q => decide (q.1 ∈ g.nodesL)))

/-- Well-formedness of the dict representation: node keys are unique and
adjacency dicts only mention nodes. -/
def graph_wf (g : Graph) : Bool :=
  decide g.nodesL.Nodup && graph_closed g

theorem graph_closed_iff (g : Graph) :
    graph_closed g = true ↔ ∀ p ∈ g.adj, ∀ q ∈ p.2, q.1 ∈ g.nodesL := by
  simp [graph_closed, List.all_eq_true]

theorem graph_wf_iff (g : Graph) :
    graph_wf g = true ↔ g.nodesL.Nodup ∧ graph_closed g = true := by
  simp [graph_wf]

theorem closed_adjOf_keys (g : Graph) (x y : String)
    (hc : graph_closed g = true) (hy : y ∈ alist_keys (g.adjOf x)) :
    y ∈ g.nodesL := by
  rcases hget : alist_get g.adj x with _ | inner
  · simp only [Graph.adjOf, hget, Option.getD_none, alist_keys] at hy
    cases hy
  · simp only [Graph.adjOf, hget, Option.getD_some] at hy
    obtain ⟨v, hv⟩ := alist_get_mem_keys inner y hy
    have hmem := alist_get_mem inner y v hv
    exact (graph_closed_iff g).1 hc (x, inner) (alist_get_mem g.adj x inner hget) (y, v) hmem

theorem add_edge_keys_of_mem (h : Graph) (u v : String) (w : Rat)
    (hu : u ∈ h.nodesL) (hv : v ∈ h.nodesL) :
    (h.add_edge u v w).nodesL = h.nodesL := by
  rw [add_edge_eq_writes, add_node_of_mem h u hu, add_node_of_mem h v hv]
  simp only [add_edge_writes, Graph.nodesL]
  rw [alist_keys_set_mem, alist_keys_set_mem]
  · exact hu
  · rw [alist_keys_set_mem]
    · exact hv
    · exact hu

theorem fold_add_edge_keys (es : List (String × Rat)) :
    ∀ (h : Graph) (new : String), new ∈ h.nodesL → (∀ p ∈ es, p.1 ∈ h.nodesL) →
      (es.foldl (fun g2 p => g2.add_edge new p.1 p.2) h).nodesL = h.nodesL := by
  induction es with
  | nil => intro h new _ _; rfl
  | cons p ps ih =>
      intro h new hnew hall
      have hkeys := add_edge_keys_of_mem h new p.1 p.2 hnew
        (hall p (List.mem_cons_self _ _))
      simp only [List.foldl_cons]
      rw [ih (h.add_edge new p.1 p.2) new (hkeys ▸ hnew)
        (fun q hq => hkeys ▸ hall q (List.mem_cons_of_mem _ hq)), hkeys]

/-- One `add_edge u v w` call preserves closedness when both endpoints are
nodes. -/
theorem add_edge_closed (h : Graph) (u v : String) (w : Rat)
    (hu : u ∈ h.nodesL) (hv : v ∈ h.nodesL) (hc : graph_closed h = true) :
    graph_closed (h.add_edge u v w) = true := by
  have hkeys := add_edge_keys_of_mem h u v w hu hv
  rw [graph_closed_iff]
  rw [add_edge_eq_writes, add_node_of_mem h u hu, add_node_of_mem h v hv] at hkeys ⊢
  intro p hp q hq
  rw [hkeys]
  have hadjOfu : ∀ s2 : String × Rat, s2 ∈ h.adjOf u → s2.1 ∈ h.nodesL := by
    intro s2 hs2
    exact closed_adjOf_keys h u s2.1 hc (List.mem_map_of_mem Prod.fst hs2)
  have hG2 : ∀ s2 : String × Rat,
      s2 ∈ (⟨alist_set h.adj u (alist_set (h.adjOf u) v w)⟩ : Graph).adjOf v →
      s2.1 ∈ h.nodesL := by
    by_cases huv : u = v
    · subst huv
      have he : (⟨alist_set h.adj u (alist_set (h.adjOf u) u w)⟩ : Graph).adjOf u
          = alist_set (h.adjOf u) u w := by
        simp only [Graph.adjOf]
        rw [alist_get_set_eq]
        rfl
      rw [he]
      intro s2 hs2
      rcases mem_alist_set_elim _ _ _ _ hs2 with hs3 | hs3
      · exact hadjOfu s2 hs3
      · rw [hs3]
        exact hu
    · have he : (⟨alist_set h.adj u (alist_set (h.adjOf u) v w)⟩ : Graph).adjOf v
          = h.adjOf v := by
        simp only [Graph.adjOf]
        rw [alist_get_set_ne _ _ _ _ (fun h2 => huv h2.symm)]
      rw [he]
      intro s2 hs2
      exact closed_adjOf_keys h v s2.1 hc (List.mem_map_of_mem Prod.fst hs2)
  simp only [add_edge_writes] at hp
  rcases mem_alist_set_elim _ _ _ _ hp with hp1 | hp1
  · rcases mem_alist_set_elim _ _ _ _ hp1 with hp2 | hp2
    · exact (graph_closed_iff h).1 hc p hp2 q hq
    · rw [hp2] at hq
      rcases mem_alist_set_elim _ _ _ _ hq with hq2 | hq2
      · exact hadjOfu q hq2
      · rw [hq2]
        exact hv
  · rw [hp1] at hq
    rcases mem_alist_set_elim _ _ _ _ hq with hq2 | hq2
    · exact hG2 q hq2
    · rw [hq2]
      exact hu

theorem fold_add_edge_closed (es : List (String × Rat)) :
    ∀ (h : Graph) (new : String), new ∈ h.nodesL → (∀ p ∈ es, p.1 ∈ h.nodesL) →
      graph_closed h = true →
      graph_closed (es.foldl (fun g2 p => g2.add_edge new p.1 p.2) h) = true := by
  induction es with
  | nil => intro h new _ _ hc; exact hc
  | cons p ps ih =>
      intro h new hnew hall hc
      have hp1 := hall p (List.mem_cons_self _ _)
      have hkeys := add_edge_keys_of_mem h new p.1 p.2 hnew hp1
      simp only [List.foldl_cons]
      exact ih (h.add_edge new p.1 p.2) new (hkeys ▸ hnew)
        (fun q hq => hkeys ▸ hall q (List.mem_cons_of_mem _ hq))
        (add_edge_closed h new p.1 p.2 hnew hp1 hc)

theorem remove_closed (g : Graph) (l : List String) (hc : graph_closed g = true) :
    graph_closed (g.remove_nodes_from l) = true := by
  rw [graph_closed_iff]
  intro p hp q hq
  rw [remove_keys g l]
  simp only [Graph.remove_nodes_from] at hp
  obtain ⟨p0, hp0, rfl⟩ := List.mem_map.1 hp
  have hp0mem : p0 ∈ g.adj := List.mem_of_mem_filter hp0
  have hq0 : q ∈ p0.2 := List.mem_of_mem_filter hq
  have hql := List.of_mem_filter hq
  exact List.mem_filter.2 ⟨(graph_closed_iff g).1 hc p0 hp0mem q hq0, hql⟩

theorem add_node_keys_fresh (g : Graph) (v : String) (h : v ∉ g.nodesL) :
    (g.add_node v).nodesL = g.nodesL ++ [v] := by
  unfold Graph.add_node
  rw [if_neg h]
  simp [Graph.nodesL, alist_keys]

theorem add_node_closed (g : Graph) (v : String) (hc : graph_closed g = true) :
    graph_closed (g.add_node v) = true := by
  by_cases hv : v ∈ g.nodesL
  · rw [add_node_of_mem g v hv]
    exact hc
  · rw [graph_closed_iff]
    intro p hp q hq
    rw [add_node_keys_fresh g v hv]
    have hsplit : p ∈ g.adj ∨ p = (v, []) := by
      unfold Graph.add_node at hp
      rw [if_neg hv] at hp
      simpa using List.mem_append.1 hp
    rcases hsplit with h1 | h1
    · exact List.mem_append.2 (Or.inl ((graph_closed_iff g).1 hc p h1 q hq))
    · rw [h1] at hq
      cases hq

/-- Shape of the merged graph's node list and preservation of
well-formedness: the two merged nodes are gone, the composite node sits
at the end, everything else is untouched. -/
theorem merge_graph_nodes_wf (g : Graph) (a b : String)
    (hwf : graph_wf g = true) (hfresh : (a ++ "," ++ b) ∉ g.nodesL) :
    (merge_graph g a b).nodesL
      = (g.nodesL.filter (fun x => x ∉ [a, b])) ++ [a ++ "," ++ b] ∧
    graph_wf (merge_graph g a b) = true := by
  obtain ⟨hnd, hc⟩ := (graph_wf_iff g).1 hwf
  set new := a ++ "," ++ b with hnewdef
  set g0 := g.remove_nodes_from [a, b] with hg0
  have hk0 : g0.nodesL = g.nodesL.filter (fun x => x ∉ [a, b]) := remove_keys g [a, b]
  have hfresh0 : new ∉ g0.nodesL := by
    rw [hk0]
    intro hm
    exact hfresh (List.mem_of_mem_filter hm)
  have hc0 : graph_closed g0 = true := remove_closed g [a, b] hc
  set g1 := g0.add_node new with hg1
  have hk1 : g1.nodesL = g0.nodesL ++ [new] := add_node_keys_fresh g0 new hfresh0
  have hc1 : graph_closed g1 = true := add_node_closed g0 new hc0
  have hnew1 : new ∈ g1.nodesL := by
    rw [hk1]
    simp
  have hes : ∀ p ∈ merge_edges g a b, p.1 ∈ g1.nodesL := by
    intro p hp
    have hkey : p.1 ∈ alist_keys (merge_edges g a b) := List.mem_map_of_mem Prod.fst hp
    rw [keys_merge_edges] at hkey
    have hun : p.1 ∈ g.nbr_union a b := List.mem_of_mem_filter hkey
    have hnotab := List.of_mem_filter hkey
    simp only [decide_eq_true_eq] at hnotab
    have hgmem : p.1 ∈ g.nodesL := by
      rcases (mem_nbr_union g a b p.1).1 hun with h1 | h1
      · exact closed_adjOf_keys g a p.1 hc h1
      · exact closed_adjOf_keys g b p.1 hc h1
    rw [hk1, hk0]
    refine List.mem_append.2 (Or.inl (List.mem_filter.2 ⟨hgmem, ?_⟩))
    exact decide_eq_true (by simp [List.mem_cons, hnotab])
  have hshape : (merge_graph g a b).nodesL = g0.nodesL ++ [new] := by
    show ((merge_edges g a b).foldl (fun g2 p => g2.add_edge new p.1 p.2) g1).nodesL
      = g0.nodesL ++ [new]
    rw [fold_add_edge_keys _ g1 new hnew1 hes, hk1]
  constructor
  · rw [hshape, hk0]
  · rw [graph_wf_iff]
    constructor
    · rw [hshape, hk0]
      refine List.Nodup.append (hnd.filter _) (List.nodup_singleton _) ?_
      intro x hx1 hx2
      simp only [List.mem_singleton] at hx2
      exact hfresh (hx2 ▸ List.mem_of_mem_filter hx1)
    · show graph_closed ((merge_edges g a b).foldl (fun g2 p => g2.add_edge new p.1 p.2) g1) = true
      exact fold_add_edge_closed _ g1 new hnew1 hes hc1

theorem merge_nodes_succeeds (a b : String) (s : GState)
    (ha : a ∈ s.G.nodesL) (hb : b ∈ s.G.nodesL)
    (hpa : a ∈ alist_keys s.pos) (hpb : b ∈ alist_keys s.pos) :
    ∃ t, merge_nodes a b s = .ok t ∧ t.G = merge_graph s.G a b := by
  obtain ⟨p1, hp1⟩ := alist_get_mem_keys s.pos a hpa
  obtain ⟨p2, hp2⟩ := alist_get_mem_keys s.pos b hpb
  cases hok : merge_nodes a b s with
  | ok t => exact ⟨t, rfl, merge_nodes_G a b s t hok⟩
  | error t =>
      exfalso
      simp only [merge_nodes] at hok
      split at hok
      · split at hok
        · simp at hok
        · next h1 => exact h1 p1 p2 hp1 hp2
      · next h1 => exact h1 ⟨ha, hb⟩

/-- Precondition for one merge step of C8: both nodes exist (in the graph
and in the position dict), they are distinct, and the composite id is
fresh (the data-model invariant). -/
def merge_ok_step (s : GState) (p : String × String) : Bool :=
  decide (p.1 ∈ s.G.nodesL) && decide (p.2 ∈ s.G.nodesL) && decide (p.1 ≠ p.2) &&
  decide ((p.1 ++ "," ++ p.2) ∉ s.G.nodesL) &&
  decide (p.1 ∈ alist_keys s.pos) && decide (p.2 ∈ alist_keys s.pos)

/-- Every step of the merge sequence satisfies `merge_ok_step` in the
state it actually runs in. -/
def merges_ok : List (String × String) → GState → Bool
  | [], _ => true
  | p :: ps, s =>
      merge_ok_step s p &&
      (match merge_nodes p.1 p.2 s with
       | .ok s1 => merges_ok ps s1
       | .error _ => false)

/-- C8: every valid merge removes exactly one node, so `n` sequential
merges starting from `N` nodes end with `N - n` nodes (stated
additively), and well-formedness is preserved along the way. -/
theorem merge_node_count (ps : List (String × String)) :
    ∀ s : GState, graph_wf s.G = true → merges_ok ps s = true →
      ∃ t, apply_merges ps s = .ok t ∧
        t.G.nodesL.length + ps.length = s.G.nodesL.length ∧
        graph_wf t.G = true := by
  induction ps with
  | nil =>
      intro s hwf _
      exact ⟨s, rfl, by simp, hwf⟩
  | cons p ps ih =>
      intro s hwf h
      simp only [merges_ok, Bool.and_eq_true] at h
      obtain ⟨hstep, hrest⟩ := h
      simp only [merge_ok_step, Bool.and_eq_true, decide_eq_true_eq] at hstep
      obtain ⟨⟨⟨⟨⟨ha, hb⟩, hne⟩, hfresh⟩, hpa⟩, hpb⟩ := hstep
      obtain ⟨t1, hok, hG⟩ := merge_nodes_succeeds p.1 p.2 s ha hb hpa hpb
      simp only [hok] at hrest
      obtain ⟨hsh, hwf1⟩ := merge_graph_nodes_wf s.G p.1 p.2 hwf hfresh
      have hwf2 : graph_wf t1.G = true := by
        rw [hG]
        exact hwf1
      have hcount : t1.G.nodesL.length + 1 = s.G.nodesL.length := by
        rw [hG, hsh]
        have hnd := ((graph_wf_iff s.G).1 hwf).1
        have hlf := length_filter_pair s.G.nodesL p.1 p.2 hnd ha hb hne
        simp only [List.length_append, List.length_singleton]
        omega
      obtain ⟨t, happ, hcnt, hwf3⟩ := ih t1 hwf2 hrest
      refine ⟨t, ?_, ?_, hwf3⟩
      · simp only [apply_merges]
        rw [hok]
        exact happ
      · simp only [List.length_cons]
        omega

theorem merge_node_count_witness :
    (graph_wf c3s.G = true ∧ merges_ok [("0", "1")] c3s = true) ∧
    (∃ t, apply_merges [("0", "1")] c3s = .ok t ∧
      t.G.nodesL.length + 1 = c3s.G.nodesL.length ∧ graph_wf t.G = true) :=
  ⟨⟨by decide, by decide⟩,
   merge_node_count [("0", "1")] c3s (by decide) (by decide)⟩
